import Mathlib

/-!
Shallow embedding of `src/buildtools/jq_wrapper.c` (jq4j), the host-memory
bridge that drives the jq engine over linear memory.

Modelling conventions:
* `jv` values are modelled by the inductive `Jv`; the external streaming
  parser is modelled by the list of well-formed JSON values it will yield in
  order (`jv_parser_next` yields them one by one and then `jv_invalid`).
* Bytes are `Nat`; the newline byte is `10`.
* The C allocator (`malloc`/`realloc`) is modelled by an oracle
  `ok : Nat → Bool` saying whether an allocation of a given size succeeds;
  `realloc` preserves the previously allocated bytes and pads the new region
  with zero bytes (the C contents of fresh memory are unspecified; no claim
  depends on them).
* The jq engine is out of scope (a black box): `jq_start v` followed by the
  stream of `jq_next` results is modelled by a function `engine : Jv → List Jv`
  giving the finite result sequence for an input value, and
  `jv_dump_string` by a function `dump : Dumpopts → Jv → List Nat`.
* Global mutable state (`output_buf`/`output_len`/`output_cap`, the engine
  handle) is threaded explicitly; `process` returns a `ProcResult` recording
  the return code, the final output-buffer state, the list of values handed
  to `run_jq` (its invocation trace), and the final input-assembler state
  (`none` when the assembler was never constructed).
-/

namespace JqWrapper

/-- JSON values as produced by the jq `jv` library (enough structure for the
wrapper: the wrapper itself only ever builds arrays, `null`, and passes
values through). -/
inductive Jv where
  | null : Jv
  | bool : Bool → Jv
  | num : Int → Jv
  | str : String → Jv
  | arr : List Jv → Jv

/-- The growable output buffer: globals `output_buf` (the allocated region,
`store.length = cap` when well-formed), `output_len` and `output_cap` of
`jq_wrapper.c`. -/
structure OutBuf where
  store : List Nat
  len : Nat
  cap : Nat
deriving DecidableEq, Repr

/-- Well-formedness of the output buffer globals: the written prefix fits in
the allocation and the allocation has exactly `cap` bytes.  (`len` and `cap`
are C `int`s that the wrapper keeps non-negative; as `Nat`s here,
`0 ≤ len` holds by construction.) -/
def OutBuf.Wf (st : OutBuf) : Prop :=
  st.len ≤ st.cap ∧ st.store.length = st.cap

instance (st : OutBuf) : Decidable st.Wf := by
  unfold OutBuf.Wf; infer_instance

/-- The bytes the host can read after a call: `output_buf[0 .. output_len)`. -/
def OutBuf.written (st : OutBuf) : List Nat :=
  st.store.take st.len

/-- `int get_output_len(void) { return output_len; }` -/
def get_output_len (st : OutBuf) : Nat := st.len

/-- `char *get_output_ptr(void) { return output_buf; }` — the readable view
of the storage. -/
def get_output_ptr (st : OutBuf) : List Nat := st.store

/-- `static void output_reset(void) { output_len = 0; }` -/
def output_reset (st : OutBuf) : OutBuf :=
  { st with len := 0 }

/-- The capacity-doubling loop of `output_append`:
`while (new_cap < needed) new_cap *= 2;`.  The extra `0 < cap` guard only
rules out the diverging start `cap = 0`, which `output_append` never
produces (its starting point is `output_cap ? output_cap : 4096`). -/
def grow (cap needed : Nat) : Nat :=
  if h : cap < needed ∧ 0 < cap then grow (2 * cap) needed else cap
termination_by needed - cap
decreasing_by omega

/-- `memcpy(output_buf + output_len, s, slen)`: overwrite `s.length` bytes of
`store` starting at position `pos`. -/
def writeAt (store : List Nat) (pos : Nat) (s : List Nat) : List Nat :=
  store.take pos ++ s ++ store.drop (pos + s.length)

/-- `static int output_append(const char *s, int slen)` of `jq_wrapper.c`,
with the allocator oracle `ok` deciding whether `realloc` to the new
capacity succeeds.  Returns the C return value (`0` ok, `-1` allocation
failure) together with the output-buffer globals after the call. -/
def output_append (ok : Nat → Bool) (st : OutBuf) (s : List Nat) :
    Int × OutBuf :=
  let needed := st.len + s.length
  if needed > st.cap then
    let new_cap := grow (if st.cap = 0 then 4096 else st.cap) needed
    if ok new_cap then
      let st1 : OutBuf :=
        { store := st.store.take st.cap ++
            List.replicate (new_cap - st.cap) 0,
          len := st.len, cap := new_cap }
      (0, { st1 with store := writeAt st1.store st1.len s,
                     len := st1.len + s.length })
    else
      (-1, st)
  else
    (0, { st with store := writeAt st.store st.len s,
                  len := st.len + s.length })

/-- `buf_input`: the buffer-backed input assembler.  The external streaming
parser over the borrowed byte range is modelled by `remaining`, the list of
well-formed values it will still yield; `slurped` is the `jv` slurp
accumulator, `none` standing for `jv_invalid()`. -/
structure BufInput where
  remaining : List Jv
  slurped : Option (List Jv)

/-- `buf_input_init`: fresh parser over the whole buffer; empty array
accumulator iff slurping. -/
def buf_input_init (vals : List Jv) (slurp : Bool) : BufInput :=
  { remaining := vals, slurped := if slurp then some [] else none }

/-- `static jv buf_input_next(buf_input *bi)`: the
`while (jv_is_valid(value = jv_parser_next(...)))` loop.  Yields the next
parsed value immediately when not slurping; when slurping, folds every
parsed value into the accumulator and yields the accumulated array exactly
once at parser exhaustion; afterwards yields `jv_invalid()` (`none`). -/
def buf_input_next_go : List Jv → Option (List Jv) → Option Jv × BufInput
  | [], none => (none, ⟨[], none⟩)
  | [], some acc => (some (Jv.arr acc), ⟨[], none⟩)
  | v :: rest, none => (some v, ⟨rest, none⟩)
  | v :: rest, some acc => buf_input_next_go rest (some (acc ++ [v]))

/-- Entry point of the assembler's pull step, on the `buf_input` state. -/
def buf_input_next (bi : BufInput) : Option Jv × BufInput :=
  buf_input_next_go bi.remaining bi.slurped

/-- The dump options computed by `process`:
`dumpopts = (flags & FLAG_COMPACT) ? 0 : JV_PRINT_INDENT_FLAGS(2)`, then
`|= JV_PRINT_SORTED` when `FLAG_SORT_KEYS`.  The numeric encodings
`JV_PRINT_*` live in the external engine header, so the option word is
modelled by its two decoded components. -/
structure Dumpopts where
  indent2 : Bool
  sorted : Bool
deriving DecidableEq, Repr

/-- Flag decoding (`FLAG_SLURP = 1<<0`, `FLAG_NULL_INPUT = 1<<1`,
`FLAG_COMPACT = 1<<2`, `FLAG_SORT_KEYS = 1<<3`) applied to the dump
options. -/
def dumpopts_of (flags : Nat) : Dumpopts :=
  { indent2 := !flags.testBit 2, sorted := flags.testBit 3 }

/-- The `jq_start`/`jq_next` loop body of `run_jq`, once the engine has been
started: `results` is the stream of values the engine's `jq_next` will
still yield for the current input.  `dumps r` is the serialized form
`jv_dump_string(r, dumpopts)`.  Returns the C return value (`0` ok, `-1`
append failure), the output buffer after the loop, and the results left
undrained inside the engine when the loop returned (the single
`jv_free(jq_next(jq))` drain pulls at most one further result). -/
def run_jq_loop (ok : Nat → Bool) (dumps : Jv → List Nat) :
    OutBuf → List Jv → Int × OutBuf × List Jv
  | st, [] => (0, st, [])
  | st, r :: rest =>
      let p1 := output_append ok st (dumps r)
      if p1.1 < 0 then
        (-1, p1.2, rest.tail)
      else
        let p2 := output_append ok p1.2 [10]
        if p2.1 < 0 then
          (-1, p2.2, rest.tail)
        else
          run_jq_loop ok dumps p2.2 rest

/-- `static int run_jq(jv input, int dumpopts)`: start the engine on
`input` (consuming it) and drain its results into the output buffer, each
followed by one newline byte. -/
def run_jq (ok : Nat → Bool) (dumps : Jv → List Nat)
    (engine : Jv → List Jv) (st : OutBuf) (input : Jv) :
    Int × OutBuf × List Jv :=
  run_jq_loop ok dumps st (engine input)

/-- What a call to `process` exposes: the returned `int`, the final
output-buffer globals, the trace of values handed to `run_jq` (in order),
and the final `buf_input` state right before `buf_input_free` (`none` when
`process` returned before constructing the assembler). -/
structure ProcResult where
  rc : Int
  out : OutBuf
  runTrace : List Jv
  fin : Option BufInput

/-- The measure under which the orchestrator's
`while (jv_is_valid(value = buf_input_next(&input)))` loop terminates. -/
def biMeasure (bi : BufInput) : Nat :=
  bi.remaining.length + (if bi.slurped.isSome then 1 else 0)

theorem buf_input_next_go_slurp (rem : List Jv) (acc : List Jv) :
    buf_input_next_go rem (some acc) =
      (some (Jv.arr (acc ++ rem)), ⟨[], none⟩) := by
  induction rem generalizing acc with
  | nil => simp [buf_input_next_go]
  | cons v rest ih => simp [buf_input_next_go, ih]

theorem buf_input_next_measure (bi : BufInput) (v : Jv) (bi' : BufInput)
    (h : buf_input_next bi = (some v, bi')) : biMeasure bi' < biMeasure bi := by
  obtain ⟨rem, slurped⟩ := bi
  cases slurped with
  | some acc =>
      rw [buf_input_next, buf_input_next_go_slurp] at h
      cases h
      simp [biMeasure]
  | none =>
      cases rem with
      | nil => simp [buf_input_next, buf_input_next_go] at h
      | cons w rest =>
          rw [buf_input_next] at h
          simp only [buf_input_next_go] at h
          cases h
          simp [biMeasure]

/-- The orchestrator's input loop
(`while (jv_is_valid(value = buf_input_next(&input))) run_jq(value, dumpopts);`),
with `run1` the current-call `run_jq` instance.  Returns the output buffer
after the loop, the trace of values handed to `run1`, and the final
assembler state.  Note the loop discards `run1`'s return value, exactly as
the C does. -/
def process_loop (run1 : OutBuf → Jv → Int × OutBuf × List Jv)
    (st : OutBuf) (bi : BufInput) : OutBuf × List Jv × BufInput :=
  match h : buf_input_next bi with
  | (none, bi') => (st, [], bi')
  | (some v, bi') =>
      let q := process_loop run1 (run1 st v).2.1 bi'
      (q.1, v :: q.2.1, q.2.2)
termination_by biMeasure bi
decreasing_by exact buf_input_next_measure bi v bi' h

/-- `int process(...)` of `jq_wrapper.c`.  The engine-side unknowns are
explicit parameters: `jqInit` is whether the load-time constructor managed
to build the `jq_state` singleton, `fAllocOk` whether the
`malloc(filter_len + 1)` for the null-terminated filter copy succeeds,
`compileOk` the result of `jq_compile`, `ok` the allocator oracle for the
output buffer, `dump` the serializer, `engine` the compiled filter's result
stream, `st0` the output-buffer globals left over from the previous call,
`inputVals` the well-formed JSON values the parser yields from the input
buffer, and `flags` the flag word. -/
def process (jqInit fAllocOk compileOk : Bool) (ok : Nat → Bool)
    (dump : Dumpopts → Jv → List Nat) (engine : Jv → List Jv)
    (st0 : OutBuf) (inputVals : List Jv) (flags : Nat) : ProcResult :=
  if !jqInit then ⟨-3, st0, [], none⟩
  else
    let st := output_reset st0
    if !fAllocOk then ⟨-3, st, [], none⟩
    else if !compileOk then ⟨-1, st, [], none⟩
    else
      let opts := dumpopts_of flags
      let bi := buf_input_init inputVals (flags.testBit 0)
      if flags.testBit 1 then
        let st1 := (run_jq ok (dump opts) engine st Jv.null).2.1
        ⟨Int.ofNat st1.len, st1, [Jv.null], some bi⟩
      else
        let q := process_loop (run_jq ok (dump opts) engine) st bi
        ⟨Int.ofNat q.1.len, q.1, q.2.1, some q.2.2⟩

/-- Operations the wrapper performs on the output-buffer globals (used to
state the sequence invariant of the accumulator). -/
inductive OutOp where
  | reset : OutOp
  | append : List Nat → OutOp

/-- The output-buffer globals after one operation: `output_reset`, or
`output_append` (whose failure leaves the globals untouched, since the C
returns before any assignment). -/
def applyOp (ok : Nat → Bool) (st : OutBuf) : OutOp → OutBuf
  | .reset => output_reset st
  | .append s => (output_append ok st s).2

/- ### Helper lemmas about `grow` -/

theorem le_grow (c n : Nat) : c ≤ grow c n := by
  induction c, n using grow.induct with
  | case1 c n h ih =>
      rw [grow, dif_pos h]
      omega
  | case2 c n h =>
      rw [grow, dif_neg h]

theorem grow_ge (c n : Nat) (hc : 0 < c) : n ≤ grow c n := by
  induction c, n using grow.induct with
  | case1 c n h ih =>
      rw [grow, dif_pos h]
      exact ih (by omega)
  | case2 c n h =>
      rw [grow, dif_neg h]
      omega

theorem grow_pow (c n : Nat) (hc : 0 < c) :
    ∃ k, grow c n = c * 2 ^ k ∧ ∀ j, j < k → c * 2 ^ j < n := by
  induction c, n using grow.induct with
  | case1 c n h ih =>
      obtain ⟨k, hk, hmin⟩ := ih (by omega)
      refine ⟨k + 1, ?_, ?_⟩
      · rw [grow, dif_pos h, hk]; ring
      · intro j hj
        cases j with
        | zero => simpa using h.1
        | succ j' =>
            have := hmin j' (by omega)
            calc c * 2 ^ (j' + 1) = 2 * c * 2 ^ j' := by ring
            _ < n := this
  | case2 c n h =>
      exact ⟨0, by rw [grow, dif_neg h]; ring, by omega⟩

/- ### Helper lemmas about `writeAt` -/

theorem writeAt_length (store s : List Nat) (pos : Nat)
    (h : pos + s.length ≤ store.length) :
    (writeAt store pos s).length = store.length := by
  simp [writeAt]
  omega

theorem writeAt_take_written (store s : List Nat) (pos : Nat)
    (h : pos ≤ store.length) :
    (writeAt store pos s).take (pos + s.length) = store.take pos ++ s := by
  have hlen : (store.take pos ++ s).length = pos + s.length := by
    simp; omega
  calc (writeAt store pos s).take (pos + s.length)
      = ((store.take pos ++ s) ++ store.drop (pos + s.length)).take
          ((store.take pos ++ s).length) := by
        rw [writeAt, hlen, List.append_assoc]
    _ = store.take pos ++ s := List.take_left _ _

/- ### Helper lemmas about `output_append` -/

theorem output_append_fail_iff (ok : Nat → Bool) (st : OutBuf) (s : List Nat) :
    (output_append ok st s).1 = -1 ↔
      (st.cap < st.len + s.length ∧
       ok (grow (if st.cap = 0 then 4096 else st.cap)
            (st.len + s.length)) = false) := by
  by_cases hc : st.len + s.length > st.cap
  · by_cases hok : ok (grow (if st.cap = 0 then 4096 else st.cap)
        (st.len + s.length)) = true
    · simp [output_append, hc, hok]
    · simp only [Bool.not_eq_true] at hok
      simp [output_append, hc, hok]
  · simp [output_append, hc]

theorem output_append_fail_state (ok : Nat → Bool) (st : OutBuf)
    (s : List Nat) (h : (output_append ok st s).1 = -1) :
    (output_append ok st s).2 = st := by
  rw [output_append_fail_iff] at h
  simp [output_append, h.1, h.2]

theorem output_append_fst_cases (ok : Nat → Bool) (st : OutBuf)
    (s : List Nat) :
    (output_append ok st s).1 = 0 ∨ (output_append ok st s).1 = -1 := by
  by_cases hc : st.len + s.length > st.cap
  · by_cases hok : ok (grow (if st.cap = 0 then 4096 else st.cap)
        (st.len + s.length)) = true
    · left; simp [output_append, hc, hok]
    · right
      simp only [Bool.not_eq_true] at hok
      simp [output_append, hc, hok]
  · left; simp [output_append, hc]

theorem output_append_succ (ok : Nat → Bool) (st : OutBuf) (s : List Nat)
    (hwf : st.Wf) (h0 : (output_append ok st s).1 = 0) :
    ∃ st', output_append ok st s = (0, st') ∧ st'.Wf ∧
      st'.written = st.written ++ s ∧
      st'.len = st.len + s.length ∧ st.cap ≤ st'.cap := by
  obtain ⟨hlc, hsc⟩ := hwf
  refine ⟨(output_append ok st s).2, ?_, ?_⟩
  · exact Prod.ext h0 rfl
  by_cases hc : st.len + s.length > st.cap
  · set base := if st.cap = 0 then 4096 else st.cap with hbase
    have hbpos : 0 < base := by
      rw [hbase]; split <;> omega
    have hcapb : st.cap ≤ base := by
      rw [hbase]; split <;> omega
    set ncap := grow base (st.len + s.length) with hncap
    have hneed : st.len + s.length ≤ ncap := grow_ge _ _ hbpos
    have hcaple : st.cap ≤ ncap := le_trans hcapb (le_grow _ _)
    by_cases hok : ok ncap = true
    · have heq : (output_append ok st s).2 =
          { store := writeAt (st.store.take st.cap ++
                List.replicate (ncap - st.cap) 0) st.len s,
            len := st.len + s.length, cap := ncap } := by
        simp [output_append, hc, ← hbase, ← hncap, hok]
      have hstore : st.store.take st.cap = st.store := by
        rw [← hsc]; exact List.take_length _
      have hbig : (st.store ++ List.replicate (ncap - st.cap) 0).length
          = ncap := by simp [hsc]; omega
      rw [heq]
      dsimp only [OutBuf.Wf, OutBuf.written]
      refine ⟨⟨le_refl _ |>.trans hneed, ?_⟩, ?_, rfl, hcaple⟩
      · simp only [hstore]
        rw [writeAt_length _ _ _ (by rw [hbig]; exact hneed), hbig]
      · simp only [OutBuf.written, hstore]
        rw [writeAt_take_written _ _ _ (by rw [hbig]; omega)]
        rw [List.take_append_of_le_length (by omega)]
    · exfalso
      have hfail : (output_append ok st s).1 = -1 := by
        rw [output_append_fail_iff]
        refine ⟨by omega, ?_⟩
        rw [← hbase, ← hncap]
        simpa using hok
      rw [h0] at hfail
      exact absurd hfail (by norm_num)
  · have heq : (output_append ok st s).2 =
        { st with store := writeAt st.store st.len s,
                  len := st.len + s.length } := by
      simp [output_append, hc]
    rw [heq]
    dsimp only [OutBuf.Wf, OutBuf.written]
    refine ⟨⟨by omega, ?_⟩, ?_, rfl, le_refl _⟩
    · rw [writeAt_length _ _ _ (by omega)]; exact hsc
    · rw [writeAt_take_written _ _ _ (by omega)]

theorem output_append_true_fst (st : OutBuf) (s : List Nat) :
    (output_append (fun _ => true) st s).1 = 0 := by
  rcases output_append_fst_cases (fun _ => true) st s with h | h
  · exact h
  · rw [output_append_fail_iff] at h
    simp at h

/- ### Helper lemmas about `run_jq_loop` and `process_loop` -/

theorem run_jq_loop_true (d : Jv → List Nat) (rs : List Jv) (st : OutBuf)
    (hwf : st.Wf) :
    ∃ stF, run_jq_loop (fun _ => true) d st rs = (0, stF, []) ∧ stF.Wf ∧
      stF.written = st.written ++ rs.flatMap (fun r => d r ++ [10]) ∧
      stF.len = st.len + (rs.flatMap (fun r => d r ++ [10])).length := by
  induction rs generalizing st with
  | nil => exact ⟨st, rfl, hwf, by simp, by simp⟩
  | cons r rest ih =>
      have h1 := output_append_true_fst st (d r)
      obtain ⟨st1, he1, hwf1, hw1, hl1, _⟩ :=
        output_append_succ _ st (d r) hwf h1
      have h2 := output_append_true_fst st1 [10]
      obtain ⟨st2, he2, hwf2, hw2, hl2, _⟩ :=
        output_append_succ _ st1 [10] hwf1 h2
      obtain ⟨stF, heF, hwfF, hwF, hlF⟩ := ih st2 hwf2
      refine ⟨stF, ?_, hwfF, ?_, ?_⟩
      · simp only [run_jq_loop, he1, he2]
        norm_num
        exact heF
      · rw [hwF, hw2, hw1]
        simp
      · rw [hlF, hl2, hl1]
        simp
        omega

theorem run_jq_loop_fail_shape (ok : Nat → Bool) (d : Jv → List Nat)
    (rs : List Jv) (st : OutBuf)
    (h : (run_jq_loop ok d st rs).1 = -1) :
    ∃ done r rest, rs = done ++ r :: rest ∧
      (run_jq_loop ok d st rs).2.2 = rest.tail := by
  induction rs generalizing st with
  | nil => simp [run_jq_loop] at h
  | cons r rest ih =>
      by_cases h1 : (output_append ok st (d r)).1 < 0
      · refine ⟨[], r, rest, by simp, ?_⟩
        simp [run_jq_loop, h1]
      · by_cases h2 : (output_append ok (output_append ok st (d r)).2 [10]).1 < 0
        · refine ⟨[], r, rest, by simp, ?_⟩
          simp [run_jq_loop, h1, h2]
        · have hh : (run_jq_loop ok d
              (output_append ok (output_append ok st (d r)).2 [10]).2 rest).1
              = -1 := by
            simpa [run_jq_loop, h1, h2] using h
          obtain ⟨done, r', rest', hsplit, hpend⟩ := ih _ hh
          refine ⟨r :: done, r', rest', by rw [hsplit]; rfl, ?_⟩
          simpa [run_jq_loop, h1, h2] using hpend

theorem process_loop_none (run1 : OutBuf → Jv → Int × OutBuf × List Jv)
    (st : OutBuf) (bi bi' : BufInput)
    (h : buf_input_next bi = (none, bi')) :
    process_loop run1 st bi = (st, [], bi') := by
  rw [process_loop]
  rw [h]

theorem process_loop_some (run1 : OutBuf → Jv → Int × OutBuf × List Jv)
    (st : OutBuf) (bi bi' : BufInput) (v : Jv)
    (h : buf_input_next bi = (some v, bi')) :
    process_loop run1 st bi =
      ((process_loop run1 (run1 st v).2.1 bi').1,
       v :: (process_loop run1 (run1 st v).2.1 bi').2.1,
       (process_loop run1 (run1 st v).2.1 bi').2.2) := by
  rw [process_loop]
  rw [h]

/-- Orchestrator loop over the plain (non-slurp) assembler: runs the filter
once per remaining parsed value, in order. -/
theorem process_loop_plain (run1 : OutBuf → Jv → Int × OutBuf × List Jv)
    (vals : List Jv) (st : OutBuf) :
    (process_loop run1 st ⟨vals, none⟩).2.1 = vals ∧
    (process_loop run1 st ⟨vals, none⟩).2.2 = ⟨[], none⟩ := by
  induction vals generalizing st with
  | nil =>
      rw [process_loop_none run1 st ⟨[], none⟩ ⟨[], none⟩ rfl]
      exact ⟨rfl, rfl⟩
  | cons v rest ih =>
      rw [process_loop_some run1 st ⟨v :: rest, none⟩ ⟨rest, none⟩ v rfl]
      obtain ⟨htr, hfin⟩ := ih (run1 st v).2.1
      exact ⟨by rw [htr], hfin⟩

theorem writeAt_take_front (store s : List Nat) (pos : Nat)
    (h : pos ≤ store.length) :
    (writeAt store pos s).take pos = store.take pos := by
  rw [writeAt]
  rw [List.append_assoc]
  rw [List.take_append_of_le_length (by simp; omega)]
  rw [List.take_take]
  simp

/-- The `run_jq` loop on the identity-like engine (`engine v = [v]`) with an
always-succeeding allocator, composed over the plain assembler: one record
plus newline per input value, in order. -/
theorem process_loop_plain_true (d : Jv → List Nat) (vals : List Jv)
    (st : OutBuf) (hwf : st.Wf) :
    ∃ stF, process_loop (run_jq (fun _ => true) d (fun v => [v])) st
        ⟨vals, none⟩ = (stF, vals, ⟨[], none⟩) ∧ stF.Wf ∧
      stF.written = st.written ++ vals.flatMap (fun v => d v ++ [10]) ∧
      stF.len = st.len + (vals.flatMap (fun v => d v ++ [10])).length := by
  induction vals generalizing st with
  | nil =>
      refine ⟨st, ?_, hwf, by simp, by simp⟩
      rw [process_loop_none _ st ⟨[], none⟩ ⟨[], none⟩ rfl]
  | cons v rest ih =>
      obtain ⟨st1, he1, hwf1, hw1, hl1⟩ :=
        run_jq_loop_true d [v] st hwf
      have hrun : run_jq (fun _ => true) d (fun v => [v]) st v =
          (0, st1, []) := he1
      obtain ⟨stF, heF, hwfF, hwF, hlF⟩ := ih st1 hwf1
      refine ⟨stF, ?_, hwfF, ?_, ?_⟩
      · rw [process_loop_some _ st ⟨v :: rest, none⟩ ⟨rest, none⟩ v rfl]
        rw [hrun]
        dsimp only
        rw [heF]
      · rw [hwF, hw1]
        simp
      · rw [hlF, hl1]
        simp
        omega

/- ### Claim theorems -/

/-- C9: for every sequence of reset and append operations on the output
accumulator started from well-formed globals, `0 ≤ length ≤ capacity` holds
after each operation (lengths are `Nat`s here, so `0 ≤ length` is
inherent and the stated inequality is `length ≤ capacity`); and
`output_reset` sets `length` to exactly `0` while leaving the capacity and
the buffer storage unchanged. -/
theorem c9_accumulator_invariant (ok : Nat → Bool) :
    (∀ (st : OutBuf), st.Wf → ∀ (ops : List OutOp) (i : Nat),
      ((ops.take i).foldl (applyOp ok) st).len ≤
        ((ops.take i).foldl (applyOp ok) st).cap) ∧
    (∀ st : OutBuf, output_reset st = ⟨st.store, 0, st.cap⟩) := by
  have hstep : ∀ (st : OutBuf), st.Wf → ∀ op : OutOp,
      (applyOp ok st op).Wf := by
    intro st hwf op
    cases op with
    | reset => exact ⟨Nat.zero_le _, hwf.2⟩
    | append s =>
        rcases output_append_fst_cases ok st s with h | h
        · obtain ⟨st', he, hwf', _⟩ := output_append_succ ok st s hwf h
          simpa [applyOp, he] using hwf'
        · have := output_append_fail_state ok st s h
          simpa [applyOp, this] using hwf
  have hfold : ∀ (ops : List OutOp) (st : OutBuf), st.Wf →
      (ops.foldl (applyOp ok) st).Wf := by
    intro ops
    induction ops with
    | nil => intro st hwf; exact hwf
    | cons op rest ih =>
        intro st hwf
        exact ih _ (hstep st hwf op)
  refine ⟨fun st hwf ops i => (hfold _ _ hwf).1, fun st => rfl⟩

/-- C9 witness. -/
theorem c9_accumulator_invariant_witness :
    (⟨[], 0, 0⟩ : OutBuf).Wf ∧
    ((∀ (st : OutBuf), st.Wf → ∀ (ops : List OutOp) (i : Nat),
        ((ops.take i).foldl (applyOp (fun _ => true)) st).len ≤
          ((ops.take i).foldl (applyOp (fun _ => true)) st).cap) ∧
      (∀ st : OutBuf, output_reset st = ⟨st.store, 0, st.cap⟩)) :=
  ⟨by decide, c9_accumulator_invariant (fun _ => true)⟩

/-- C10: an `output_append` that fails (the allocator refuses the grow
request) is atomic in its failure: it reports `-1` and leaves the
output-buffer globals — storage, `length`, `capacity`, hence every
previously written byte — exactly as they were; no partial write occurs. -/
theorem c10_append_failure_atomic (ok : Nat → Bool) (st : OutBuf)
    (s : List Nat) (h : (output_append ok st s).1 = -1) :
    (output_append ok st s).2 = st ∧
    (output_append ok st s).2.written = st.written := by
  have he := output_append_fail_state ok st s h
  exact ⟨he, by rw [he]⟩

/-- C10 witness: a concrete failing append (allocator always refuses). -/
theorem c10_append_failure_atomic_witness :
    (output_append (fun _ => false) ⟨[], 0, 0⟩ [65]).1 = -1 ∧
    ((output_append (fun _ => false) ⟨[], 0, 0⟩ [65]).2 = ⟨[], 0, 0⟩ ∧
      (output_append (fun _ => false) ⟨[], 0, 0⟩ [65]).2.written =
        (⟨[], 0, 0⟩ : OutBuf).written) :=
  ⟨rfl, c10_append_failure_atomic (fun _ => false) ⟨[], 0, 0⟩ [65] rfl⟩

/-- C8: when an append exceeds the current capacity, the new capacity is
obtained by starting from 4096 (or the current nonzero capacity) and
doubling until it is at least the required total length (`∃ k` doublings,
with every smaller number of doublings insufficient); the append fails
exactly when the allocator cannot satisfy that request; and on success all
previously written bytes are preserved at their positions. -/
theorem c8_growth_policy (ok : Nat → Bool) (st : OutBuf) (s : List Nat)
    (hwf : st.Wf) (hover : st.cap < st.len + s.length) :
    ∃ k,
      grow (if st.cap = 0 then 4096 else st.cap) (st.len + s.length) =
        (if st.cap = 0 then 4096 else st.cap) * 2 ^ k ∧
      st.len + s.length ≤ (if st.cap = 0 then 4096 else st.cap) * 2 ^ k ∧
      (∀ j, j < k →
        (if st.cap = 0 then 4096 else st.cap) * 2 ^ j < st.len + s.length) ∧
      ((output_append ok st s).1 = -1 ↔
        ok (grow (if st.cap = 0 then 4096 else st.cap)
             (st.len + s.length)) = false) ∧
      (∀ st', output_append ok st s = (0, st') →
        st'.cap = grow (if st.cap = 0 then 4096 else st.cap)
            (st.len + s.length) ∧
        st'.len = st.len + s.length ∧
        st'.store.take st.len = st.store.take st.len) := by
  obtain ⟨hlc, hsc⟩ := hwf
  have hbpos : 0 < if st.cap = 0 then 4096 else st.cap := by
    split <;> omega
  obtain ⟨k, hk, hmin⟩ := grow_pow _ (st.len + s.length) hbpos
  have hge : st.len + s.length ≤
      grow (if st.cap = 0 then 4096 else st.cap) (st.len + s.length) :=
    grow_ge _ _ hbpos
  refine ⟨k, hk, by rw [← hk]; exact hge, fun j hj => hmin j hj, ?_, ?_⟩
  · rw [output_append_fail_iff]
    constructor
    · exact fun h => h.2
    · exact fun h => ⟨hover, h⟩
  · intro st' he
    by_cases hok : ok (grow (if st.cap = 0 then 4096 else st.cap)
        (st.len + s.length)) = true
    · have heq : (output_append ok st s).2 =
          { store := writeAt (st.store.take st.cap ++
                List.replicate
                  (grow (if st.cap = 0 then 4096 else st.cap)
                      (st.len + s.length) - st.cap) 0) st.len s,
            len := st.len + s.length,
            cap := grow (if st.cap = 0 then 4096 else st.cap)
                (st.len + s.length) } := by
        simp [output_append, hover, hok]
      have hst' : st' = (output_append ok st s).2 := by rw [he]
      rw [hst', heq]
      refine ⟨rfl, rfl, ?_⟩
      have hstore : st.store.take st.cap = st.store := by
        rw [← hsc]; exact List.take_length _
      rw [hstore]
      rw [writeAt_take_front _ _ _ (by simp [hsc]; omega)]
      rw [List.take_append_of_le_length (by omega)]
    · exfalso
      have : (output_append ok st s).1 = -1 := by
        rw [output_append_fail_iff]
        exact ⟨hover, by simpa using hok⟩
      rw [he] at this
      exact absurd this (by norm_num)

/-- C8 witness. -/
theorem c8_growth_policy_witness :
    ((⟨[], 0, 0⟩ : OutBuf).Wf ∧ (0 : Nat) < 0 + [65].length) ∧
    (∃ k,
      grow (if (0 : Nat) = 0 then 4096 else 0) (0 + [65].length) =
        (if (0 : Nat) = 0 then 4096 else 0) * 2 ^ k ∧
      0 + [65].length ≤ (if (0 : Nat) = 0 then 4096 else 0) * 2 ^ k ∧
      (∀ j, j < k →
        (if (0 : Nat) = 0 then 4096 else 0) * 2 ^ j < 0 + [65].length) ∧
      ((output_append (fun _ => true) ⟨[], 0, 0⟩ [65]).1 = -1 ↔
        (fun _ => true) (grow (if (0 : Nat) = 0 then 4096 else 0)
             (0 + [65].length)) = false) ∧
      (∀ st', output_append (fun _ => true) ⟨[], 0, 0⟩ [65] = (0, st') →
        st'.cap = grow (if (0 : Nat) = 0 then 4096 else 0)
            (0 + [65].length) ∧
        st'.len = 0 + [65].length ∧
        st'.store.take 0 = ([] : List Nat).take 0)) :=
  ⟨⟨by decide, by decide⟩,
    c8_growth_policy (fun _ => true) ⟨[], 0, 0⟩ [65] (by decide) (by decide)⟩

/-- C2 (as stated) is false: on allocation failure the run loop performs a
single `jv_free(jq_next(jq))`, so with three pending results and the first
append failing, one result is left undrained. -/
theorem c2_counterexample :
    (run_jq (fun _ => false) (fun _ => [65])
      (fun _ => [Jv.null, Jv.bool true, Jv.bool false])
      ⟨[], 0, 0⟩ Jv.null).1 = -1 ∧
    (run_jq (fun _ => false) (fun _ => [65])
      (fun _ => [Jv.null, Jv.bool true, Jv.bool false])
      ⟨[], 0, 0⟩ Jv.null).2.2 = [Jv.bool false] ∧
    (Jv.bool false :: []) ≠ ([] : List Jv) := by
  refine ⟨rfl, rfl, ?_⟩
  intro h
  exact List.noConfusion h

/-- C2 amended: if an append fails due to allocation failure, the run loop
requests exactly one further result from the engine and discards it before
returning its error; results beyond that single drained one (the tail of
what remained) are left undrained inside the engine. -/
theorem c2_drain_exactly_one (ok : Nat → Bool) (d : Jv → List Nat)
    (engine : Jv → List Jv) (st : OutBuf) (v : Jv)
    (h : (run_jq ok d engine st v).1 = -1) :
    ∃ done r rest, engine v = done ++ r :: rest ∧
      (run_jq ok d engine st v).2.2 = rest.tail :=
  run_jq_loop_fail_shape ok d (engine v) st h

/-- C2 amended witness. -/
theorem c2_drain_exactly_one_witness :
    (run_jq (fun _ => false) (fun _ => [65])
      (fun _ => [Jv.null, Jv.bool true, Jv.bool false])
      ⟨[], 0, 0⟩ Jv.null).1 = -1 ∧
    (∃ done r rest,
      (fun _ => [Jv.null, Jv.bool true, Jv.bool false]) Jv.null =
        done ++ r :: rest ∧
      (run_jq (fun _ => false) (fun _ => [65])
        (fun _ => [Jv.null, Jv.bool true, Jv.bool false])
        ⟨[], 0, 0⟩ Jv.null).2.2 = rest.tail) :=
  ⟨rfl, c2_drain_exactly_one (fun _ => false) (fun _ => [65])
    (fun _ => [Jv.null, Jv.bool true, Jv.bool false]) ⟨[], 0, 0⟩ Jv.null rfl⟩

/-- C1 (as stated) is false: with jq initialized, the filter compiled, a
pre-existing 3-byte capacity and an allocator that refuses every grow
request, the second result's newline append fails (`run_jq` reports `-1`),
yet `process` returns `3` — the byte count accumulated before the failure —
not a negative error code. -/
theorem c1_counterexample :
    (run_jq (fun _ => false) (fun _ => [65]) (fun _ => [Jv.null, Jv.null])
      (output_reset ⟨[0, 0, 0], 0, 3⟩) Jv.null).1 = -1 ∧
    (process true true true (fun _ => false) (fun _ _ => [65])
      (fun _ => [Jv.null, Jv.null]) ⟨[0, 0, 0], 0, 3⟩ [] 2).rc = 3 ∧
    ¬ (process true true true (fun _ => false) (fun _ _ => [65])
      (fun _ => [Jv.null, Jv.null]) ⟨[0, 0, 0], 0, 3⟩ [] 2).rc < 0 := by
  exact ⟨rfl, rfl, by decide⟩

/-- C1 amended: in the growable variant, an allocation failure while
draining engine results makes `run_jq` return `-1`, but `process` discards
that value: whenever the engine is initialized and the filter copy and
compilation succeed, `process` returns the output accumulator's final
length — a non-negative byte count that includes any bytes appended before
the failure — never a negative allocation-failure code. -/
theorem c1_rc_is_output_len (ok : Nat → Bool)
    (dump : Dumpopts → Jv → List Nat) (engine : Jv → List Jv)
    (st0 : OutBuf) (vals : List Jv) (flags : Nat) :
    (process true true true ok dump engine st0 vals flags).rc =
      Int.ofNat (process true true true ok dump engine st0 vals flags).out.len ∧
    0 ≤ (process true true true ok dump engine st0 vals flags).rc := by
  by_cases h : flags.testBit 1 <;> simp [process, h]

/-- C3 (as stated) is false: with the engine handle initialized but the
`malloc(filter_len + 1)` for the null-terminated filter copy failing,
`process` still returns `-3`. -/
theorem c3_counterexample :
    (process true false true (fun _ => true) (fun _ _ => [])
      (fun _ => []) ⟨[], 0, 0⟩ [] 0).rc = -3 := rfl

/-- C3 amended: `process` returns `-3` if and only if the engine handle was
never constructed or the allocation of the null-terminated filter copy
fails; with the handle initialized it can still return `-3`, but only for
that filter-copy allocation failure. -/
theorem c3_rc_init_iff (jqInit fAllocOk compileOk : Bool) (ok : Nat → Bool)
    (dump : Dumpopts → Jv → List Nat) (engine : Jv → List Jv)
    (st0 : OutBuf) (vals : List Jv) (flags : Nat) :
    (process jqInit fAllocOk compileOk ok dump engine st0 vals flags).rc = -3
      ↔ (jqInit = false ∨ fAllocOk = false) := by
  cases jqInit with
  | false => simp [process]
  | true =>
      cases fAllocOk with
      | false => simp [process]
      | true =>
          cases compileOk with
          | false => simp [process]
          | true =>
              by_cases h : flags.testBit 1 <;> simp [process, h]

/-- C7: on filter-compile failure (engine initialized, filter copy
allocated), `process` returns `-1`, the assembler is never constructed (so
no input byte is consumed), the run loop never runs, and the output length
read afterwards is `0` from the reset at call start. -/
theorem c7_compile_failure (ok : Nat → Bool)
    (dump : Dumpopts → Jv → List Nat) (engine : Jv → List Jv)
    (st0 : OutBuf) (vals : List Jv) (flags : Nat) :
    (process true true false ok dump engine st0 vals flags).rc = -1 ∧
    get_output_len (process true true false ok dump engine st0 vals flags).out
      = 0 ∧
    (process true true false ok dump engine st0 vals flags).runTrace = [] ∧
    (process true true false ok dump engine st0 vals flags).fin = none := by
  refine ⟨rfl, rfl, rfl, rfl⟩

/-- C6: with the null-input flag set (and init, filter copy and compile
succeeding), the run loop is invoked exactly once, on the null value; the
orchestrator's own loop never pulls from the assembler, whose final state
is exactly the freshly constructed one over the input buffer (still
registered for in-filter pulls). -/
theorem c6_null_input (ok : Nat → Bool) (dump : Dumpopts → Jv → List Nat)
    (engine : Jv → List Jv) (st0 : OutBuf) (vals : List Jv) (flags : Nat)
    (hn : flags.testBit 1 = true) :
    (process true true true ok dump engine st0 vals flags).runTrace =
      [Jv.null] ∧
    (process true true true ok dump engine st0 vals flags).fin =
      some (buf_input_init vals (flags.testBit 0)) := by
  refine ⟨?_, ?_⟩ <;> simp [process, hn]

/-- C6 witness (`flags = 2`: null-input bit set, slurp bit clear, over a
deliberately nonempty input the loop must not parse). -/
theorem c6_null_input_witness :
    Nat.testBit 2 1 = true ∧
    ((process true true true (fun _ => true) (fun _ _ => [65])
        (fun _ => []) ⟨[], 0, 0⟩ [Jv.bool true] 2).runTrace = [Jv.null] ∧
      (process true true true (fun _ => true) (fun _ _ => [65])
        (fun _ => []) ⟨[], 0, 0⟩ [Jv.bool true] 2).fin =
        some (buf_input_init [Jv.bool true] (Nat.testBit 2 0))) :=
  ⟨by decide, c6_null_input (fun _ => true) (fun _ _ => [65]) (fun _ => [])
    ⟨[], 0, 0⟩ [Jv.bool true] 2 (by decide)⟩

/-- C4: in slurp mode the assembler yields nothing before parser
exhaustion (one pull folds every remaining parsed value into the
aggregate and returns it), yields the array of all input values in
original order exactly once, and yields only the end marker afterwards; so
`process` (identity-like engine, succeeding allocator) runs the filter
once on that array and the output is exactly one serialized record
followed by one newline. -/
theorem c4_slurp (dump : Dumpopts → Jv → List Nat) (st0 : OutBuf)
    (vals : List Jv) (flags : Nat) (hwf : st0.Wf)
    (hs : flags.testBit 0 = true) (hn : flags.testBit 1 = false) :
    (∀ (acc rem : List Jv), buf_input_next ⟨rem, some acc⟩ =
      (some (Jv.arr (acc ++ rem)), ⟨[], none⟩)) ∧
    buf_input_next ⟨[], none⟩ = (none, ⟨[], none⟩) ∧
    (process true true true (fun _ => true) dump (fun v => [v])
      st0 vals flags).runTrace = [Jv.arr vals] ∧
    (process true true true (fun _ => true) dump (fun v => [v])
      st0 vals flags).out.written =
        dump (dumpopts_of flags) (Jv.arr vals) ++ [10] ∧
    (process true true true (fun _ => true) dump (fun v => [v])
      st0 vals flags).rc =
        Int.ofNat ((dump (dumpopts_of flags) (Jv.arr vals)).length + 1) := by
  have hreset : (output_reset st0).Wf := ⟨Nat.zero_le _, hwf.2⟩
  obtain ⟨st1, he1, hwf1, hw1, hl1⟩ :=
    run_jq_loop_true (dump (dumpopts_of flags)) [Jv.arr vals]
      (output_reset st0) hreset
  have hbn : buf_input_next ⟨vals, some []⟩ =
      (some (Jv.arr vals), ⟨[], none⟩) := by
    rw [buf_input_next]
    rw [buf_input_next_go_slurp]
    rw [List.nil_append]
  have hrun : run_jq (fun _ => true) (dump (dumpopts_of flags))
      (fun v => [v]) (output_reset st0) (Jv.arr vals) = (0, st1, []) := he1
  have hloop : process_loop (run_jq (fun _ => true)
        (dump (dumpopts_of flags)) (fun v => [v]))
      (output_reset st0) ⟨vals, some []⟩ = (st1, [Jv.arr vals], ⟨[], none⟩) := by
    rw [process_loop_some _ (output_reset st0) ⟨vals, some []⟩ ⟨[], none⟩
        (Jv.arr vals) hbn]
    rw [hrun]
    dsimp only
    rw [process_loop_none _ st1 ⟨[], none⟩ ⟨[], none⟩ rfl]
  have hbi : buf_input_init vals (flags.testBit 0) = ⟨vals, some []⟩ := by
    rw [hs]; rfl
  have hq : process true true true (fun _ => true) dump (fun v => [v])
      st0 vals flags = ⟨Int.ofNat st1.len, st1, [Jv.arr vals],
        some ⟨[], none⟩⟩ := by
    simp only [process, Bool.not_true, Bool.false_eq_true, if_false,
      hn, hbi, hloop]
  refine ⟨fun acc rem => buf_input_next_go_slurp rem acc, rfl, ?_, ?_, ?_⟩
  · rw [hq]
  · rw [hq]
    dsimp only
    rw [hw1]
    simp [output_reset, OutBuf.written]
  · rw [hq]
    dsimp only
    rw [hl1]
    simp [output_reset]

/-- C4 witness. -/
theorem c4_slurp_witness :
    ((⟨[], 0, 0⟩ : OutBuf).Wf ∧ Nat.testBit 1 0 = true ∧
      Nat.testBit 1 1 = false) ∧
    ((∀ (acc rem : List Jv), buf_input_next ⟨rem, some acc⟩ =
        (some (Jv.arr (acc ++ rem)), ⟨[], none⟩)) ∧
      buf_input_next ⟨[], none⟩ = (none, ⟨[], none⟩) ∧
      (process true true true (fun _ => true) (fun _ _ => [65])
        (fun v => [v]) ⟨[], 0, 0⟩ [Jv.null, Jv.bool true] 1).runTrace =
          [Jv.arr [Jv.null, Jv.bool true]] ∧
      (process true true true (fun _ => true) (fun _ _ => [65])
        (fun v => [v]) ⟨[], 0, 0⟩ [Jv.null, Jv.bool true] 1).out.written =
          (fun _ _ => ([65] : List Nat)) (dumpopts_of 1)
            (Jv.arr [Jv.null, Jv.bool true]) ++ [10] ∧
      (process true true true (fun _ => true) (fun _ _ => [65])
        (fun v => [v]) ⟨[], 0, 0⟩ [Jv.null, Jv.bool true] 1).rc =
          Int.ofNat (((fun _ _ => ([65] : List Nat)) (dumpopts_of 1)
            (Jv.arr [Jv.null, Jv.bool true])).length + 1)) :=
  ⟨⟨by decide, by decide, by decide⟩,
    c4_slurp (fun _ _ => [65]) ⟨[], 0, 0⟩ [Jv.null, Jv.bool true] 1
      (by decide) (by decide) (by decide)⟩

/-- C5: with slurp and null-input both off, an identity-like engine and a
succeeding allocator, the output is exactly one serialized record followed
by one newline per input value, in original input order, and the runTrace
is exactly the input values. -/
theorem c5_per_value_records (dump : Dumpopts → Jv → List Nat)
    (st0 : OutBuf) (vals : List Jv) (flags : Nat) (hwf : st0.Wf)
    (hs : flags.testBit 0 = false) (hn : flags.testBit 1 = false) :
    (process true true true (fun _ => true) dump (fun v => [v])
      st0 vals flags).runTrace = vals ∧
    (process true true true (fun _ => true) dump (fun v => [v])
      st0 vals flags).out.written =
        vals.flatMap (fun v => dump (dumpopts_of flags) v ++ [10]) ∧
    (process true true true (fun _ => true) dump (fun v => [v])
      st0 vals flags).rc =
        Int.ofNat ((vals.flatMap
          (fun v => dump (dumpopts_of flags) v ++ [10])).length) := by
  have hreset : (output_reset st0).Wf := ⟨Nat.zero_le _, hwf.2⟩
  obtain ⟨stF, heF, hwfF, hwF, hlF⟩ :=
    process_loop_plain_true (dump (dumpopts_of flags)) vals
      (output_reset st0) hreset
  have hbi : buf_input_init vals (flags.testBit 0) = ⟨vals, none⟩ := by
    rw [hs]; rfl
  have hq : process true true true (fun _ => true) dump (fun v => [v])
      st0 vals flags = ⟨Int.ofNat stF.len, stF, vals, some ⟨[], none⟩⟩ := by
    simp only [process, Bool.not_true, Bool.false_eq_true, if_false,
      hn, hbi, heF]
  refine ⟨?_, ?_, ?_⟩
  · rw [hq]
  · rw [hq]
    dsimp only
    rw [hwF]
    simp [output_reset, OutBuf.written]
  · rw [hq]
    dsimp only
    rw [hlF]
    simp [output_reset]

/-- C5 witness. -/
theorem c5_per_value_records_witness :
    ((⟨[], 0, 0⟩ : OutBuf).Wf ∧ Nat.testBit 0 0 = false ∧
      Nat.testBit 0 1 = false) ∧
    ((process true true true (fun _ => true) (fun _ _ => [65])
        (fun v => [v]) ⟨[], 0, 0⟩ [Jv.null, Jv.bool true] 0).runTrace =
          [Jv.null, Jv.bool true] ∧
      (process true true true (fun _ => true) (fun _ _ => [65])
        (fun v => [v]) ⟨[], 0, 0⟩ [Jv.null, Jv.bool true] 0).out.written =
          [Jv.null, Jv.bool true].flatMap
            (fun v => (fun _ _ => ([65] : List Nat)) (dumpopts_of 0) v
              ++ [10]) ∧
      (process true true true (fun _ => true) (fun _ _ => [65])
        (fun v => [v]) ⟨[], 0, 0⟩ [Jv.null, Jv.bool true] 0).rc =
          Int.ofNat (([Jv.null, Jv.bool true].flatMap
            (fun v => (fun _ _ => ([65] : List Nat)) (dumpopts_of 0) v
              ++ [10])).length)) :=
  ⟨⟨by decide, by decide, by decide⟩,
    c5_per_value_records (fun _ _ => [65]) ⟨[], 0, 0⟩
      [Jv.null, Jv.bool true] 0 (by decide) (by decide) (by decide)⟩

end JqWrapper
